import Mathlib

/-!
# Verification of the Judecca interpreter (`run.py`)

Shallow embedding of the Judecca esoteric-language interpreter.  Bytes are
modelled as `Nat` values below 256, byte strings as `List Nat`.  The Python
`bytearray` tape halves are `List Nat` with the Python "end" (`[-1]`, `append`,
`pop`) at the Lean list end.  `dict` jump mappings are `Nat → Option Int`
(`none` = key absent, i.e. a lookup raises `KeyError`); the `-1` dict value is
the UNRESOLVED sentinel, kept as a genuine `Int` as in the source.  Python
`exit(...)`/uncaught exceptions are modelled by `Except Err`.

The page stream consumed by `JumpTable` and `Machine` is abstracted as a total
function `pages : Nat → List Nat` (one list of 64 nibbles per page index), the
behaviour `PageCache.get_instructions` provides on its success path; the
`PageCache` itself, and the SHA-256-based page generation it serves, are
embedded separately and faithfully below.
-/

namespace Judecca

/-- `PAGE_SIZE = 256 // 4` from `run.py`. -/
def PAGE_SIZE : Nat := 64

/-- `SEED_HASH_ITERATIONS = 2_000_000` from `run.py`. -/
def SEED_HASH_ITERATIONS : Nat := 2000000

/-- `RESTRICTION_MAXPAGE = 2**20` from `run.py`. -/
def RESTRICTION_MAXPAGE : Nat := 2 ^ 20

/-- `RESTRICTION_MAXTAPE = 2**20` from `run.py`. -/
def RESTRICTION_MAXTAPE : Nat := 2 ^ 20

/-- The exit status of `exit(1)` in `run_arbitrary` (wrong argument count). -/
def usageExitStatus : Nat := 1

/-- The exit status of `exit(2)` used by both resource-limit violations
(`PageCache.get_instructions` and the tape-extension branch of `Machine.step`). -/
def limitExitStatus : Nat := 2

/-! ## SHA-256 (`hashlib.sha256`), FIPS 180-4, over byte lists -/

/-- The 64 SHA-256 round constants (FIPS 180-4 `K`, in decimal). -/
def sha256K : List Nat :=
  [1116352408, 1899447441, 3049323471, 3921009573, 961987163, 1508970993,
   2453635748, 2870763221, 3624381080, 310598401, 607225278, 1426881987,
   1925078388, 2162078206, 2614888103, 3248222580, 3835390401, 4022224774,
   264347078, 604807628, 770255983, 1249150122, 1555081692, 1996064986,
   2554220882, 2821834349, 2952996808, 3210313671, 3336571891, 3584528711,
   113926993, 338241895, 666307205, 773529912, 1294757372, 1396182291,
   1695183700, 1986661051, 2177026350, 2456956037, 2730485921, 2820302411,
   3259730800, 3345764771, 3516065817, 3600352804, 4094571909, 275423344,
   430227734, 506948616, 659060556, 883997877, 958139571, 1322822218,
   1537002063, 1747873779, 1955562222, 2024104815, 2227730452, 2361852424,
   2428436474, 2756734187, 3204031479, 3329325298]

/-- The 8 initial SHA-256 hash words (FIPS 180-4 `H⁰`, in decimal). -/
def sha256H0 : List Nat :=
  [1779033703, 3144134277, 1013904242, 2773480762, 1359893119, 2600822924,
   528734635, 1541459225]

/-- 32-bit right rotation on a `Nat` below `2^32`. -/
def rotr32 (n w : Nat) : Nat := (w / 2 ^ n + w % 2 ^ n * 2 ^ (32 - n)) % 2 ^ 32

/-- 32-bit right shift. -/
def shr32 (n w : Nat) : Nat := w / 2 ^ n

def bsig0 (x : Nat) : Nat := (rotr32 2 x).xor ((rotr32 13 x).xor (rotr32 22 x))

def bsig1 (x : Nat) : Nat := (rotr32 6 x).xor ((rotr32 11 x).xor (rotr32 25 x))

def ssig0 (x : Nat) : Nat := (rotr32 7 x).xor ((rotr32 18 x).xor (shr32 3 x))

def ssig1 (x : Nat) : Nat := (rotr32 17 x).xor ((rotr32 19 x).xor (shr32 10 x))

/-- SHA-256 `Ch(x,y,z)`; `¬x` on 32 bits is `x XOR (2^32-1)`. -/
def chF (x y z : Nat) : Nat := (x.land y).xor ((x.xor (2 ^ 32 - 1)).land z)

/-- SHA-256 `Maj(x,y,z)`. -/
def majF (x y z : Nat) : Nat := ((x.land y).xor (x.land z)).xor (y.land z)

/-- Merkle–Damgård padding: `0x80`, zeros, then the bit length as 8 big-endian
bytes, bringing the length to a multiple of 64. -/
def sha256pad (msg : List Nat) : List Nat :=
  let L := msg.length
  let zeros := (64 - (L + 9) % 64) % 64
  msg ++ [0x80] ++ List.replicate zeros 0
    ++ (List.range 8).map (fun k => L * 8 / 2 ^ (8 * (7 - k)) % 256)

/-- Group a byte list into big-endian 32-bit words. -/
def toWordsBE (l : List Nat) : List Nat :=
  (List.range (l.length / 4)).map fun i =>
    l.getD (4 * i) 0 * 2 ^ 24 + l.getD (4 * i + 1) 0 * 2 ^ 16 +
      l.getD (4 * i + 2) 0 * 2 ^ 8 + l.getD (4 * i + 3) 0

/-- One SHA-256 compression: extend the 16-word block to 64 schedule words,
run the 64 rounds, add the result to the incoming hash state. -/
def sha256compress (hs ws16 : List Nat) : List Nat :=
  let w := (List.range 48).foldl (fun w _ =>
    w ++ [(w.getD (w.length - 16) 0 + ssig0 (w.getD (w.length - 15) 0) +
           w.getD (w.length - 7) 0 + ssig1 (w.getD (w.length - 2) 0)) % 2 ^ 32]) ws16
  let st := (List.range 64).foldl (fun st t =>
    let a := st.getD 0 0
    let b := st.getD 1 0
    let c := st.getD 2 0
    let d := st.getD 3 0
    let e := st.getD 4 0
    let f := st.getD 5 0
    let g := st.getD 6 0
    let h := st.getD 7 0
    let T1 := (h + bsig1 e + chF e f g + sha256K.getD t 0 + w.getD t 0) % 2 ^ 32
    let T2 := (bsig0 a + majF a b c) % 2 ^ 32
    [(T1 + T2) % 2 ^ 32, a, b, c, (d + T1) % 2 ^ 32, e, f, g]) hs
  List.zipWith (fun x y => (x + y) % 2 ^ 32) hs st

/-- `hashlib.sha256(msg).digest()`: 32-byte digest of a byte list.  Checked
below against the FIPS 180-4 test vector for `"abc"`. -/
def sha256 (msg : List Nat) : List Nat :=
  let ws := toWordsBE (sha256pad msg)
  let hs := (List.range (ws.length / 16)).foldl
    (fun hs i => sha256compress hs ((ws.drop (16 * i)).take 16)) sha256H0
  hs.foldr (fun h acc => h / 2 ^ 24 % 256 :: h / 2 ^ 16 % 256 :: h / 2 ^ 8 % 256 :: h % 256 :: acc) []

/-! ## Seed and page derivation -/

/-- `compute_seed`: starting from the source bytes, re-hash 2,000,000 times. -/
def compute_seed (source_code : List Nat) : List Nat :=
  sha256^[SEED_HASH_ITERATIONS] source_code

/-- `struct.pack('<Q', n)`: 8 little-endian bytes; `struct.error` (modelled as
`none`) when `n` does not fit into an unsigned 64-bit integer. -/
def structPackQ (n : Nat) : Option (List Nat) :=
  if n < 2 ^ 64 then some ((List.range 8).map fun k => n / 256 ^ k % 256) else none

/-- `get_page`: two-round hashing of `seed`/`page_pre`, the packed page number
and the source code.  `none` models the `struct.error` raised by
`struct.pack('<Q', ...)` for page numbers `≥ 2^64`. -/
def get_page (source_code seed : List Nat) (page_number : Nat) : Option (List Nat) :=
  (structPackQ page_number).map fun page_num_bytes =>
    let page_pre := sha256 (seed ++ page_num_bytes ++ source_code)
    sha256 (page_pre ++ page_num_bytes ++ source_code)

/-- `as_instructions`: `page.hex().upper()` turns each byte into its two hex
nibbles, high nibble first; we keep the nibbles as numbers `0..15`. -/
def as_instructions (page : List Nat) : List Nat :=
  page.foldr (fun b acc => b / 16 :: b % 16 :: acc) []

/-- Modelled from the spec: "encode `page_index` as a little-endian unsigned
integer using the minimum number of 8-byte groups needed to hold it, with a
floor of 8 bytes".  The number of 8-byte groups needed for `p`. -/
def groupsNeeded (p : Nat) : Nat := Nat.log 2 p / 64 + 1

/-- Modelled from the spec: the variable-length little-endian page-index
encoding (`8 * groupsNeeded p` bytes).  The source instead always packs
exactly 8 bytes. -/
def encSpec (p : Nat) : List Nat :=
  (List.range (8 * groupsNeeded p)).map fun k => p / 256 ^ k % 256

/-! ## Errors -/

/-- Terminal outcomes of the interpreter, one constructor per `exit(2)` call
site or uncaught Python exception class in `run.py`. -/
inductive Err where
  /-- `exit(2)` in `PageCache.get_instructions` ("tried to access page ..."). -/
  | pageLimit
  /-- `exit(2)` in the move branch of `Machine.step` ("tried to extend to ..."). -/
  | tapeLimit
  /-- `struct.error` from `struct.pack('<Q', ...)`. -/
  | packError
  /-- Python `KeyError` from a `dict` lookup. -/
  | keyError
  /-- Python `IndexError` from indexing/popping an empty sequence. -/
  | indexError
  /-- Python `AssertionError` / `raise AssertionError`. -/
  | assertError
  /-- Fuel exhaustion of the embedding of an unbounded `while` loop. -/
  | outOfFuel
deriving DecidableEq, Repr

/-! ## PageCache -/

/-- `PageCache`: single-slot memoizing wrapper around `get_page`.
`latest_page_num = none` models the initial `None`; the initial
`'INSTRUCTIONS_GO_HERE'` placeholder (never served, since `None` compares
unequal to every page number) is modelled as `[]`. -/
structure PageCache where
  source_code : List Nat
  seed : List Nat
  nolimit : Bool
  latest_page_num : Option Nat
  latest_instructions : List Nat
deriving DecidableEq, Repr

/-- `PageCache.__init__`. -/
def PageCache.init (source_code seed : List Nat) (nolimit : Bool) : PageCache :=
  { source_code, seed, nolimit, latest_page_num := none, latest_instructions := [] }

/-- `PageCache.get_instructions`: serve the cached page on a hit; otherwise
enforce the page limit (unless `nolimit`), derive and cache the page. -/
def PageCache.get_instructions (pc : PageCache) (page_num : Nat) :
    Except Err (List Nat × PageCache) :=
  if pc.latest_page_num = some page_num then
    .ok (pc.latest_instructions, pc)
  else if pc.nolimit = false ∧ page_num > RESTRICTION_MAXPAGE then
    .error .pageLimit
  else
    match get_page pc.source_code pc.seed page_num with
    | none => .error .packError
    | some page =>
        .ok (as_instructions page,
             { pc with latest_page_num := some page_num,
                       latest_instructions := as_instructions page })

/-! ## JumpTable

Also usable standalone (as the source comments intend), so its operations take
the page stream as a function `pages : Nat → List Nat`. -/

/-- `JumpTable` state: highest fully processed page (`-1` initially), the
stack of pending open-bracket landing targets (Python list end = Lean list
head), and the jump mapping (`dict`). -/
structure JT where
  progress_maxpage : Int
  progress_open : List Nat
  mapping : Nat → Option Int

/-- `JumpTable.__init__`. -/
def JT.init : JT := { progress_maxpage := -1, progress_open := [], mapping := fun _ => none }

/-- `dict` store: `mapping[k] = v`. -/
def mapSet (m : Nat → Option Int) (k : Nat) (v : Int) : Nat → Option Int :=
  fun x => if x = k then some v else m x

/-- One iteration of the `for (offset, insn) in enumerate(insn_page)` body of
`JumpTable.extend`, acting on the pair (bracket stack, mapping). -/
def extendStep (frame : Nat) (st : List Nat × (Nat → Option Int)) (oi : Nat × Nat) :
    List Nat × (Nat → Option Int) :=
  let offset := oi.1
  let insn0 := oi.2
  let insn := if insn0 = 9 then (if st.1 ≠ [] then 5 else 4) else insn0
  if insn = 4 then
    ((frame + offset + 1) :: st.1, mapSet st.2 (frame + offset) (-1))
  else if insn = 5 then
    match st.1 with
    | dest :: rest =>
        (rest, mapSet (mapSet st.2 (frame + offset) (dest : Int)) (dest - 1) (frame + offset + 1))
    | [] => ([], mapSet st.2 (frame + offset) 0)
  else st

/-- `JumpTable.extend`: advance the frontier by one page and scan it. -/
def JT.extend (pages : Nat → List Nat) (jt : JT) : JT :=
  let newmax := jt.progress_maxpage + 1
  let insn_page := pages newmax.toNat
  let frame := newmax.toNat * PAGE_SIZE
  let st := insn_page.enum.foldl (extendStep frame) (jt.progress_open, jt.mapping)
  { progress_maxpage := newmax, progress_open := st.1, mapping := st.2 }

/-- `n` successive `extend` calls. -/
def JT.extendN (pages : Nat → List Nat) : Nat → JT → JT
  | 0, jt => jt
  | n + 1, jt => JT.extendN pages n (jt.extend pages)

/-- The `while self.progress_maxpage < insn_page_num: self.extend()` loop of
`get_jump_dest`: each `extend` raises the frontier by exactly one, so the loop
runs `insn_page_num - progress_maxpage` times. -/
def JT.cover (pages : Nat → List Nat) (jt : JT) (insn_page_num : Nat) : JT :=
  JT.extendN pages ((insn_page_num : Int) - jt.progress_maxpage).toNat jt

/-- The `while dest == -1: self.extend(); dest = self.mapping[insn_num]` loop
of `get_jump_dest`, with explicit fuel for the unbounded search. -/
def resolveLoop (pages : Nat → List Nat) : Nat → JT → Nat → Except Err (Int × JT)
  | 0, _, _ => .error .outOfFuel
  | fuel + 1, jt, insn_num =>
      let jt' := jt.extend pages
      match jt'.mapping insn_num with
      | none => .error .keyError
      | some dest =>
          if dest = -1 then resolveLoop pages fuel jt' insn_num else .ok (dest, jt')

/-- `JumpTable.get_jump_dest`: cover the instruction's page, look the index up
in the mapping, then apply the five-branch policy (with
`is_determined = dest ≠ -1` and `jmp_fwd = dest > insn_num ∨ ¬is_determined`
inlined into each branch condition). -/
def JT.get_jump_dest (pages : Nat → List Nat) (fuel : Nat) (jt0 : JT) (insn_num : Nat)
    (is_head_zero : Bool) : Except Err (Int × JT) :=
  let insn_page_num := insn_num / PAGE_SIZE
  let jt := jt0.cover pages insn_page_num
  match jt.mapping insn_num with
  | none => .error .keyError
  | some dest =>
      if (dest > (insn_num : Int) ∨ dest = -1) ∧ is_head_zero = false then
        .ok ((insn_num : Int) + 1, jt)
      else if (dest > (insn_num : Int) ∨ dest = -1) ∧ is_head_zero = true ∧ dest ≠ -1 then
        .ok (dest, jt)
      else if (dest > (insn_num : Int) ∨ dest = -1) ∧ is_head_zero = true ∧ dest = -1 then
        resolveLoop pages fuel jt insn_num
      else if ¬(dest > (insn_num : Int) ∨ dest = -1) ∧ is_head_zero = false then
        .ok (dest, jt)
      else if ¬(dest > (insn_num : Int) ∨ dest = -1) ∧ is_head_zero = true then
        .ok ((insn_num : Int) + 1, jt)
      else
        .error .assertError

/-! ## Machine -/

/-- `Machine` state.  The `IODev` byte streams are modelled concretely:
`input` is the remaining stdin bytes (`read_byte` returns one byte, or zero
bytes once it is exhausted, exactly the `DefaultIODev` contract), `output`
collects the bytes passed to `write_byte`. -/
structure Machine where
  ip : Nat
  nolimit : Bool
  tape_before : List Nat
  tape_after_rev : List Nat
  jump_table : JT
  input : List Nat
  output : List Nat

/-- `Machine.__init__`: `ip = 0`, both tape sides are `bytearray(1) = [0]`. -/
def Machine.init (nolimit : Bool) (input : List Nat) : Machine :=
  { ip := 0, nolimit, tape_before := [0], tape_after_rev := [0],
    jump_table := JT.init, input, output := [] }

/-- The non-jump instruction cases of `Machine.step` (everything except
`'459'`), without the final `self.ip += 1`. -/
def Machine.execInsn (m : Machine) (insn : Nat) : Except Err Machine :=
  if 10 ≤ insn ∧ insn ≤ 15 then
    -- 'ABCDEF': '%' and '_', no-ops
    .ok m
  else if insn = 0 ∨ insn = 1 then
    -- '+-': newval = tape_after_rev[-1] + 2 * (insn == '0') - 1, masked & 0xFF
    match m.tape_after_rev.getLast? with
    | none => .error .indexError
    | some last =>
        let newval := (((last : Int) + 2 * (if insn = 0 then 1 else 0) - 1).emod 256).toNat
        .ok { m with tape_after_rev := m.tape_after_rev.dropLast ++ [newval] }
  else if insn = 2 ∨ insn = 3 then
    -- '<>': in the source BOTH branches of `if insn == '2'` select
    -- mv_from = tape_before, mv_to = tape_after_rev; the embedding keeps
    -- the two identical branches.
    let mv :=
      if insn = 2 then (m.tape_before, m.tape_after_rev)
      else (m.tape_before, m.tape_after_rev)
    match mv.1.getLast? with
    | none => .error .indexError
    | some b =>
        let mv_from := mv.1.dropLast
        let mv_to := mv.2 ++ [b]
        if mv_from = [] then
          if m.nolimit = false ∧ RESTRICTION_MAXTAPE ≤ mv_from.length then
            .error .tapeLimit
          else
            .ok { m with tape_before := mv_from ++ [0], tape_after_rev := mv_to }
        else
          .ok { m with tape_before := mv_from, tape_after_rev := mv_to }
  else if insn = 6 then
    -- '.': write_byte(tape_after_rev[-1:]); an empty slice would make
    -- DefaultIODev's `assert written == 1` fail
    match m.tape_after_rev.getLast? with
    | none => .error .assertError
    | some last => .ok { m with output := m.output ++ [last] }
  else if insn = 7 then
    -- ',': read_byte() returns one byte, or zero bytes at end of input
    match m.input with
    | b :: rest =>
        match m.tape_after_rev.getLast? with
        | none => .error .indexError
        | some _ => .ok { m with tape_after_rev := m.tape_after_rev.dropLast ++ [b],
                                 input := rest }
    | [] =>
        match m.tape_after_rev.getLast? with
        | none => .error .indexError
        | some _ => .ok { m with tape_after_rev := m.tape_after_rev.dropLast ++ [0] }
  else if insn = 8 then
    -- '$': judecca_debugging_break() is a no-op
    .ok m
  else
    .error .assertError

/-- `Machine.step`: fetch the nibble at `ip`, hand `'[]|'` to the jump table
(the returned destination becomes `ip`), otherwise run the instruction body
and advance `ip` by one. -/
def Machine.step (pages : Nat → List Nat) (fuel : Nat) (m : Machine) : Except Err Machine :=
  match (pages (m.ip / PAGE_SIZE)).get? (m.ip % PAGE_SIZE) with
  | none => .error .indexError
  | some insn =>
      if insn = 4 ∨ insn = 5 ∨ insn = 9 then
        match m.tape_after_rev.getLast? with
        | none => .error .indexError
        | some hd =>
            (JT.get_jump_dest pages fuel m.jump_table m.ip (hd = 0)).map
              fun r => { m with ip := r.1.toNat, jump_table := r.2 }
      else
        (m.execInsn insn).map fun m' => { m' with ip := m'.ip + 1 }

/-! ## Derived notions used by the verification -/

/-- A page stream whose every nibble is the opcode `c`. -/
def pagesOf (c : Nat) : Nat → List Nat := fun _ => List.replicate PAGE_SIZE c

/-- The nibble at absolute instruction index `i` of a page stream. -/
def nib (pages : Nat → List Nat) (i : Nat) : Nat :=
  (pages (i / PAGE_SIZE)).getD (i % PAGE_SIZE) 0

/-- The opcodes handled by the jump table: OPEN, CLOSE, PIVOT. -/
def isBracket (x : Nat) : Prop := x = 4 ∨ x = 5 ∨ x = 9

instance (x : Nat) : Decidable (isBracket x) := by unfold isBracket; infer_instance

/-- The tape invariant stated by the source (`# Invariant: Both lists are
non-empty.`). -/
def Machine.inv (m : Machine) : Prop := m.tape_before ≠ [] ∧ m.tape_after_rev ≠ []

/-- The whole tape, left to right; the head cell sits at position
`m.tape_before.length` (it is `m.tape_after_rev[-1]`). -/
def Machine.fullTape (m : Machine) : List Nat :=
  m.tape_before ++ m.tape_after_rev.reverse

/-! ## Basic lemmas -/

set_option maxRecDepth 100000 in
theorem sha256_abc :
    sha256 [97, 98, 99] =
      [0xba, 0x78, 0x16, 0xbf, 0x8f, 0x01, 0xcf, 0xea, 0x41, 0x41, 0x40, 0xde, 0x5d, 0xae,
       0x22, 0x23, 0xb0, 0x03, 0x61, 0xa3, 0x96, 0x17, 0x7a, 0x9c, 0xb4, 0x10, 0xff, 0x61,
       0xf2, 0x00, 0x15, 0xad] := by
  decide

theorem extend_maxpage (pages : Nat → List Nat) (jt : JT) :
    (jt.extend pages).progress_maxpage = jt.progress_maxpage + 1 := rfl

theorem extendN_maxpage (pages : Nat → List Nat) :
    ∀ (n : Nat) (jt : JT),
      (JT.extendN pages n jt).progress_maxpage = jt.progress_maxpage + n := by
  intro n
  induction n with
  | zero => intro jt; simp [JT.extendN]
  | succ n ih =>
      intro jt
      show (JT.extendN pages n (jt.extend pages)).progress_maxpage = _
      rw [ih, extend_maxpage]
      push_cast
      omega

theorem cover_of_covered (pages : Nat → List Nat) (jt : JT) (p : Nat)
    (h : (p : Int) ≤ jt.progress_maxpage) : jt.cover pages p = jt := by
  unfold JT.cover
  rw [Int.toNat_eq_zero.mpr (by omega)]
  rfl

theorem mapSet_ne_none_iff (m : Nat → Option Int) (k : Nat) (v : Int) (x : Nat) :
    mapSet m k v x ≠ none ↔ (x = k ∨ m x ≠ none) := by
  unfold mapSet
  by_cases h : x = k <;> simp [h]

theorem groupsNeeded_eq_one (p : Nat) (h : p < 2 ^ 64) : groupsNeeded p = 1 := by
  have hlog : Nat.log 2 p < 64 := by
    rcases Nat.eq_zero_or_pos p with h0 | h0
    · simp [h0, Nat.log_zero_right]
    · exact Nat.log_lt_of_lt_pow (by omega) h
  unfold groupsNeeded
  omega

theorem encSpec_eq_pack (p : Nat) (h : p < 2 ^ 64) : structPackQ p = some (encSpec p) := by
  unfold structPackQ encSpec
  rw [if_pos h, groupsNeeded_eq_one p h]

/-- The success path of `get_page`, written with the spec's variable-length
encoding (which coincides with `struct.pack('<Q', ...)` below `2^64`). -/
theorem get_page_eq_of_lt (source_code seed : List Nat) (p : Nat) (h : p < 2 ^ 64) :
    get_page source_code seed p =
      some (sha256 (sha256 (seed ++ encSpec p ++ source_code) ++ encSpec p ++ source_code)) := by
  unfold get_page
  rw [encSpec_eq_pack p h]
  rfl

/-! ## C6: page generation -/

/-- C6 (amended): for every page index `p < 2^64`, `get_page` returns
`H(H(seed ‖ enc(p) ‖ source) ‖ enc(p) ‖ source)` with `H = SHA-256` and
`enc(p)` the minimal-8-byte-group little-endian encoding (which in this range
is exactly the 8 bytes `struct.pack('<Q', p)` produces); page indices `≥ 2^64`
are not supported by the code. -/
theorem c6_get_page_two_round (source_code seed : List Nat) (p : Nat) (h : p < 2 ^ 64) :
    get_page source_code seed p =
      some (sha256 (sha256 (seed ++ encSpec p ++ source_code) ++ encSpec p ++ source_code)) :=
  get_page_eq_of_lt source_code seed p h

/-- C6 witness: the amended theorem applied at page index 0. -/
theorem c6_get_page_two_round_witness :
    get_page [] [] 0 =
      some (sha256 (sha256 ([] ++ encSpec 0 ++ []) ++ encSpec 0 ++ [])) :=
  c6_get_page_two_round [] [] 0 (by norm_num)

/-- C6 counterexample: at page index `2^64` the code raises `struct.error`
(modelled `none`) instead of returning the two-round hash of the 16-byte
spec encoding, refuting the claim for indices beyond `2^64 - 1`. -/
theorem c6_counterexample :
    get_page [] [] (2 ^ 64) ≠
      some (sha256 (sha256 ([] ++ encSpec (2 ^ 64) ++ []) ++ encSpec (2 ^ 64) ++ [])) := by
  have h1 : get_page [] [] (2 ^ 64) = none := by
    unfold get_page structPackQ
    rw [if_neg (by norm_num)]
    rfl
  intro hcontra
  rw [h1] at hcontra
  exact Option.noConfusion hcontra

/-! ## C5: page-index limit -/

/-- C5: with limits active (and the cache holding no out-of-bounds page, which
is an invariant: pages are only cached after passing this very check), any
request for a page index beyond `RESTRICTION_MAXPAGE` exits with the resource
limit status `2`, which is non-zero and distinct from the usage-error status
`1`; with `nolimit` set, the same request is served. -/
theorem c5_page_limit (pc : PageCache) (p : Nat)
    (hwf : ∀ q, pc.latest_page_num = some q → q ≤ RESTRICTION_MAXPAGE) :
    (pc.nolimit = false → RESTRICTION_MAXPAGE < p →
        pc.get_instructions p = .error .pageLimit
          ∧ limitExitStatus ≠ 0 ∧ limitExitStatus ≠ usageExitStatus)
    ∧ (pc.nolimit = true → p < 2 ^ 64 → (pc.get_instructions p).isOk = true) := by
  constructor
  · intro hn hp
    refine ⟨?_, by decide, by decide⟩
    have hne : ¬pc.latest_page_num = some p := by
      intro h
      exact absurd (hwf p h) (by omega)
    unfold PageCache.get_instructions
    rw [if_neg hne, if_pos ⟨hn, hp⟩]
  · intro hn hp
    unfold PageCache.get_instructions
    by_cases hc : pc.latest_page_num = some p
    · rw [if_pos hc]
      rfl
    · rw [if_neg hc, if_neg (by simp [hn])]
      rw [get_page_eq_of_lt pc.source_code pc.seed p hp]
      rfl

/-- C5 witness: a fresh limited cache rejects page `2^20 + 1` with status 2;
a fresh unlimited cache serves the same request. -/
theorem c5_page_limit_witness :
    ((PageCache.init [] [] false).get_instructions (RESTRICTION_MAXPAGE + 1) =
        .error .pageLimit
      ∧ limitExitStatus ≠ 0 ∧ limitExitStatus ≠ usageExitStatus)
    ∧ ((PageCache.init [] [] true).get_instructions (RESTRICTION_MAXPAGE + 1)).isOk = true :=
  ⟨(c5_page_limit (PageCache.init [] [] false) (RESTRICTION_MAXPAGE + 1)
      (fun q h => by simp [PageCache.init] at h)).1 rfl (Nat.lt_succ_self _),
   (c5_page_limit (PageCache.init [] [] true) (RESTRICTION_MAXPAGE + 1)
      (fun q h => by simp [PageCache.init] at h)).2 rfl
      (by norm_num [RESTRICTION_MAXPAGE])⟩

/-! ## C1: LEFT vs RIGHT -/

theorem pagesOf_fetch (c i : Nat) :
    (pagesOf c (i / PAGE_SIZE)).get? (i % PAGE_SIZE) = some c := by
  have h : i % PAGE_SIZE < PAGE_SIZE := Nat.mod_lt _ (by norm_num [PAGE_SIZE])
  unfold pagesOf
  simp [List.get?_eq_getElem?, h]

/-- A machine mid-tape with pairwise distinct cell values: full tape
`[7, 5, 9]`, head on the middle cell `5` (the left neighbour holds `7`,
the right neighbour `9`). -/
def mL : Machine :=
  { Machine.init false [] with tape_before := [7], tape_after_rev := [9, 5] }

/-- C1 refutation: opcode 0x3 (RIGHT) behaves exactly like opcode 0x2 (LEFT)
on every machine state — both branches of the source's `if insn == '2'`
select `mv_from = tape_before` — and concretely, executing 0x3 on `mL` makes
the LEFT neighbour `7` the new head cell (tape grows on the left; the head
lands one position to the left), not the right neighbour `9`. -/
theorem c1_right_behaves_as_left :
    (∀ (fuel : Nat) (m : Machine),
        Machine.step (pagesOf 3) fuel m = Machine.step (pagesOf 2) fuel m)
    ∧ Machine.step (pagesOf 3) 0 mL =
        .ok { mL with tape_before := [0], tape_after_rev := [9, 5, 7], ip := 1 } := by
  constructor
  · intro fuel m
    unfold Machine.step
    rw [pagesOf_fetch 3 m.ip, pagesOf_fetch 2 m.ip]
    rfl
  · rfl

/-! ## C2: the tape-extent limit is dead code -/

theorem resolveLoop_errors (pages : Nat → List Nat) :
    ∀ (fuel : Nat) (jt : JT) (i : Nat) (e : Err),
      resolveLoop pages fuel jt i = .error e → e = .keyError ∨ e = .outOfFuel := by
  intro fuel
  induction fuel with
  | zero =>
      intro jt i e h
      unfold resolveLoop at h
      injection h with h2
      exact Or.inr h2.symm
  | succ fuel ih =>
      intro jt i e h
      simp only [resolveLoop] at h
      split at h
      · left
        injection h with h2
        exact h2.symm
      · split_ifs at h
        exact ih _ _ _ h

theorem get_jump_dest_ne_tapeLimit (pages : Nat → List Nat) (fuel : Nat) (jt : JT)
    (i : Nat) (z : Bool) : JT.get_jump_dest pages fuel jt i z ≠ .error .tapeLimit := by
  intro h
  simp only [JT.get_jump_dest] at h
  split at h
  · simp at h
  · split_ifs at h <;>
      first
        | simp at h
        | (rcases resolveLoop_errors pages fuel _ i .tapeLimit h with h' | h' <;> simp at h')

theorem execInsn_ne_tapeLimit (m : Machine) (insn : Nat) :
    m.execInsn insn ≠ .error .tapeLimit := by
  intro h
  simp only [Machine.execInsn] at h
  split_ifs at h <;> (try split at h) <;> (try split at h) <;>
    simp_all [RESTRICTION_MAXTAPE]

/-- A machine whose tape already spans `2^20 + 6` cells, with resource limits
ACTIVE (`nolimit = false`). -/
def mWide : Machine :=
  { ip := 0, nolimit := false, tape_before := [0],
    tape_after_rev := List.replicate (RESTRICTION_MAXTAPE + 5) 0,
    jump_table := JT.init, input := [], output := [] }

/-- C2 refutation: no step of any machine ever produces the tape-extent
`ResourceLimitExceeded` exit — the source checks `len(mv_from) >=
RESTRICTION_MAXTAPE` right after establishing `mv_from` is empty, so the
check reads 0 and can never fire.  Concretely, a machine whose tape already
spans `2^20 + 6` cells executes a move under active limits and simply grows
the tape further. -/
theorem c2_tape_limit_dead :
    (∀ (pages : Nat → List Nat) (fuel : Nat) (m : Machine),
        Machine.step pages fuel m ≠ .error .tapeLimit)
    ∧ Machine.step (pagesOf 3) 0 mWide =
        .ok { mWide with
                tape_after_rev := List.replicate (RESTRICTION_MAXTAPE + 5) 0 ++ [0],
                ip := 1 } := by
  constructor
  · intro pages fuel m
    intro h
    simp only [Machine.step] at h
    split at h
    · simp at h
    · split_ifs at h
      · -- bracket opcode: the jump table never raises the tape limit
        split at h
        · simp at h
        · rename_i hd heq
          revert h
          cases hres : JT.get_jump_dest pages fuel m.jump_table m.ip (hd = 0) with
          | ok v => intro h; simp [Except.map, hres] at h
          | error e =>
              intro h
              simp only [Except.map] at h
              injection h with h2
              exact get_jump_dest_ne_tapeLimit pages fuel m.jump_table m.ip (hd = 0)
                (h2 ▸ hres)
      · -- non-bracket: the tape-limit branch of execInsn is unreachable
        revert h
        cases hres : m.execInsn _ with
        | ok v => intro h; simp [Except.map, hres] at h
        | error e =>
            intro h
            simp only [Except.map] at h
            injection h with h2
            exact execInsn_ne_tapeLimit m _ (h2 ▸ hres)
  · unfold Machine.step
    rw [pagesOf_fetch 3 mWide.ip]
    rfl

/-! ## C7: reading at end of input -/

theorem step_nonjump (pages : Nat → List Nat) (fuel : Nat) (m : Machine) (insn : Nat)
    (h : (pages (m.ip / PAGE_SIZE)).get? (m.ip % PAGE_SIZE) = some insn)
    (hnj : ¬(insn = 4 ∨ insn = 5 ∨ insn = 9)) :
    Machine.step pages fuel m =
      (m.execInsn insn).map fun m' => { m' with ip := m'.ip + 1 } := by
  simp only [Machine.step, h]
  rw [if_neg hnj]

theorem step_jump (pages : Nat → List Nat) (fuel : Nat) (m : Machine) (insn hd : Nat)
    (h : (pages (m.ip / PAGE_SIZE)).get? (m.ip % PAGE_SIZE) = some insn)
    (hj : insn = 4 ∨ insn = 5 ∨ insn = 9)
    (hv : m.tape_after_rev.getLast? = some hd) :
    Machine.step pages fuel m =
      (JT.get_jump_dest pages fuel m.jump_table m.ip (hd = 0)).map
        fun r => { m with ip := r.1.toNat, jump_table := r.2 } := by
  simp only [Machine.step, h]
  rw [if_pos hj, hv]

theorem execInsn_read (m : Machine) (v : Nat)
    (hv : m.tape_after_rev.getLast? = some v) :
    (m.input = [] →
        m.execInsn 7 = .ok { m with tape_after_rev := m.tape_after_rev.dropLast ++ [0] })
    ∧ (∀ b rest, m.input = b :: rest →
        m.execInsn 7 =
          .ok { m with tape_after_rev := m.tape_after_rev.dropLast ++ [b], input := rest }) := by
  constructor
  · intro hin
    unfold Machine.execInsn
    rw [if_neg (by norm_num), if_neg (by norm_num), if_neg (by norm_num),
        if_neg (by norm_num), if_pos rfl, hin, hv]
  · intro b rest hin
    unfold Machine.execInsn
    rw [if_neg (by norm_num), if_neg (by norm_num), if_neg (by norm_num),
        if_neg (by norm_num), if_pos rfl, hin, hv]

/-- C7: executing opcode 0x7 (IN) when the device reports zero bytes (end of
input) writes 0 into the HEAD cell (`tape_after_rev[-1]`), leaves every other
cell (both `tape_before` and the rest of `tape_after_rev`) unchanged and
advances the instruction pointer by 1; when the device returns one byte, that
byte is stored in the head cell. -/
theorem c7_read_eof (pages : Nat → List Nat) (fuel : Nat) (m : Machine)
    (h7 : (pages (m.ip / PAGE_SIZE)).get? (m.ip % PAGE_SIZE) = some 7)
    (hne : m.tape_after_rev ≠ []) :
    (m.input = [] →
        Machine.step pages fuel m =
          .ok { m with tape_after_rev := m.tape_after_rev.dropLast ++ [0], ip := m.ip + 1 }
        ∧ (m.tape_after_rev.dropLast ++ [0]).getLast? = some 0
        ∧ (m.tape_after_rev.dropLast ++ [0]).dropLast = m.tape_after_rev.dropLast)
    ∧ (∀ b rest, m.input = b :: rest →
        Machine.step pages fuel m =
          .ok { m with tape_after_rev := m.tape_after_rev.dropLast ++ [b],
                       input := rest, ip := m.ip + 1 }) := by
  obtain ⟨v, hv⟩ : ∃ v, m.tape_after_rev.getLast? = some v := by
    cases hg : m.tape_after_rev.getLast? with
    | none => exact absurd (List.getLast?_eq_none_iff.mp hg) hne
    | some v => exact ⟨v, rfl⟩
  rw [step_nonjump pages fuel m 7 h7 (by norm_num)]
  constructor
  · intro hin
    refine ⟨?_, List.getLast?_concat _, List.dropLast_concat⟩
    rw [(execInsn_read m v hv).1 hin]
    rfl
  · intro b rest hin
    rw [(execInsn_read m v hv).2 b rest hin]
    rfl

/-- A machine at end of input with head cell 9 and 5 in the cell before it. -/
def mEof : Machine :=
  { Machine.init false [] with tape_before := [0], tape_after_rev := [5, 9] }

/-- The same machine with pending input bytes `[3, 4]`. -/
def mIn : Machine :=
  { Machine.init false [3, 4] with tape_before := [0], tape_after_rev := [5, 9] }

/-- C7 witness: on a machine with head cell 9 (cell before it: 5), IN at end
of input zeroes the head cell only; with pending input `[3, 4]`, IN stores 3. -/
theorem c7_read_eof_witness :
    Machine.step (pagesOf 7) 0 mEof = .ok { mEof with tape_after_rev := [5, 0], ip := 1 }
    ∧ Machine.step (pagesOf 7) 0 mIn =
        .ok { mIn with tape_after_rev := [5, 3], input := [4], ip := 1 } :=
  ⟨((c7_read_eof (pagesOf 7) 0 mEof (pagesOf_fetch 7 0) (by simp [mEof])).1 rfl).1,
   (c7_read_eof (pagesOf 7) 0 mIn (pagesOf_fetch 7 0) (by simp [mIn])).2 3 [4] rfl⟩

/-! ## C8: both tape sides stay non-empty; moves change no cell -/

theorem execInsn_inv (m : Machine) (insn : Nat) (m' : Machine)
    (h : m.execInsn insn = .ok m') (hinv : m.inv) : m'.inv := by
  simp only [Machine.execInsn, ite_self] at h
  split_ifs at h <;> (try split at h) <;> (try split at h) <;>
    first
      | (simp only [Except.ok.injEq] at h; rw [← h]; simp_all [Machine.inv])
      | simp at h

theorem execInsn_move_fullTape (m : Machine) (insn : Nat) (m' : Machine)
    (hj : insn = 2 ∨ insn = 3) (h : m.execInsn insn = .ok m') :
    m'.fullTape = m.fullTape ∨ m'.fullTape = 0 :: m.fullTape := by
  simp only [Machine.execInsn, ite_self] at h
  rw [if_neg (by omega), if_neg (by omega), if_pos hj] at h
  split at h
  · simp at h
  · rename_i b heq
    split_ifs at h with he hl
    · injection h with h2
      right
      have hbefore : m.tape_before = [b] := by
        rw [← List.dropLast_append_getLast? b heq, he]
        simp
      rw [← h2]
      simp [Machine.fullTape, he, hbefore, List.reverse_append]
    · injection h with h2
      left
      rw [← h2]
      simp only [Machine.fullTape, List.reverse_append]
      conv_rhs => rw [← List.dropLast_append_getLast? b heq]
      simp

/-- C8: both tape sides are non-empty after `Machine.__init__` and stay
non-empty after every successfully executed instruction; moreover a move
instruction (opcode 0x2 or 0x3) changes no cell's value — the full tape is
either unchanged or gains one fresh zero cell at its left extremity. -/
theorem c8_tape_invariant :
    (∀ (nolimit : Bool) (input : List Nat), (Machine.init nolimit input).inv)
    ∧ (∀ (pages : Nat → List Nat) (fuel : Nat) (m m' : Machine),
        m.inv → Machine.step pages fuel m = .ok m' → m'.inv)
    ∧ (∀ (pages : Nat → List Nat) (fuel : Nat) (m m' : Machine) (insn : Nat),
        (pages (m.ip / PAGE_SIZE)).get? (m.ip % PAGE_SIZE) = some insn →
        (insn = 2 ∨ insn = 3) → Machine.step pages fuel m = .ok m' →
        (m'.fullTape = m.fullTape ∨ m'.fullTape = 0 :: m.fullTape)) := by
  refine ⟨fun nolimit input => ⟨by simp [Machine.init], by simp [Machine.init]⟩, ?_, ?_⟩
  · intro pages fuel m m' hinv hstep
    simp only [Machine.step] at hstep
    split at hstep
    · simp at hstep
    · split_ifs at hstep
      · split at hstep
        · simp at hstep
        · revert hstep
          rename_i hd heq
          cases hres : JT.get_jump_dest pages fuel m.jump_table m.ip (hd = 0) with
          | ok v =>
              intro hstep
              simp only [Except.map] at hstep
              injection hstep with h2
              rw [← h2]
              exact hinv
          | error e => intro hstep; simp [Except.map] at hstep
      · revert hstep
        cases hres : m.execInsn _ with
        | ok v =>
            intro hstep
            simp only [Except.map] at hstep
            injection hstep with h2
            rw [← h2]
            exact execInsn_inv m _ v hres hinv
        | error e => intro hstep; simp [Except.map] at hstep
  · intro pages fuel m m' insn hfetch hj hstep
    rw [step_nonjump pages fuel m insn hfetch (by omega)] at hstep
    revert hstep
    cases hres : m.execInsn insn with
    | ok v =>
        intro hstep
        simp only [Except.map] at hstep
        injection hstep with h2
        rw [← h2]
        exact execInsn_move_fullTape m insn v hj hres
    | error e => intro hstep; simp [Except.map] at hstep

/-- C8 witness: the freshly initialized machine satisfies the invariant, one
executed move preserves it, and that move only prepends a zero cell to the
full tape. -/
theorem c8_tape_invariant_witness :
    (Machine.init false []).inv
    ∧ Machine.inv
        { Machine.init false [] with tape_before := [0], tape_after_rev := [0, 0], ip := 1 }
    ∧ (Machine.fullTape
          { Machine.init false [] with tape_before := [0], tape_after_rev := [0, 0], ip := 1 } =
            (Machine.init false []).fullTape
        ∨ Machine.fullTape
            { Machine.init false [] with tape_before := [0], tape_after_rev := [0, 0], ip := 1 } =
            0 :: (Machine.init false []).fullTape) :=
  ⟨c8_tape_invariant.1 false [],
   c8_tape_invariant.2.1 (pagesOf 3) 0 (Machine.init false []) _
     ⟨by simp [Machine.init], by simp [Machine.init]⟩ rfl,
   c8_tape_invariant.2.2 (pagesOf 3) 0 (Machine.init false []) _ 3
     (pagesOf_fetch 3 0) (Or.inr rfl) rfl⟩

/-! ## C4: `extend` follows the spec's page-scan rules -/

/-- Modelled from the spec: `extend()` "advances the frontier by one page and,
scanning that page's 64 offsets in increasing order at absolute index `i`:
PIVOT is first normalized to CLOSE if the bracket stack is non-empty and to
OPEN otherwise; OPEN pushes `i+1` and records `mapping[i] = UNRESOLVED`;
CLOSE with non-empty stack pops `d`, sets `mapping[i] = d` and
`mapping[d-1] = i+1`; CLOSE with empty stack sets `mapping[i] = 0`". -/
def JT.extendSpec (pages : Nat → List Nat) (jt : JT) : JT :=
  let frontier := jt.progress_maxpage + 1
  let frame := frontier.toNat * PAGE_SIZE
  let st := (List.range PAGE_SIZE).foldl (fun st offset =>
    let i := frame + offset
    let opcode0 := (pages frontier.toNat).getD offset 0
    let opcode := if opcode0 = 9 then (if st.1 = [] then 4 else 5) else opcode0
    if opcode = 4 then
      ((i + 1) :: st.1, mapSet st.2 i (-1))
    else if opcode = 5 then
      match st.1 with
      | d :: rest => (rest, mapSet (mapSet st.2 i (d : Int)) (d - 1) (i + 1))
      | [] => (st.1, mapSet st.2 i 0)
    else st) (jt.progress_open, jt.mapping)
  { progress_maxpage := frontier, progress_open := st.1, mapping := st.2 }

theorem foldl_enumFrom_eq_range {α β : Type} (d : α) :
    ∀ (l : List α) (k : Nat) (f : β → Nat × α → β) (b : β),
      (l.enumFrom k).foldl f b =
        (List.range l.length).foldl (fun acc o => f acc (k + o, l.getD o d)) b := by
  intro l
  induction l with
  | nil => intro k f b; rfl
  | cons a l ih =>
      intro k f b
      show ((k, a) :: l.enumFrom (k + 1)).foldl f b = _
      rw [List.foldl_cons, ih (k + 1)]
      have hr : List.range (a :: l).length = 0 :: (List.range l.length).map (· + 1) := by
        simpa using List.range_succ_eq_map l.length
      rw [hr, List.foldl_cons, List.foldl_map]
      have hfun : (fun (acc : β) (o : Nat) => f acc (k + 1 + o, l.getD o d)) =
          fun acc o => f acc (k + (o + 1), (a :: l).getD (o + 1) d) := by
        funext acc o
        have h1 : k + 1 + o = k + (o + 1) := by omega
        rw [h1]
        rfl
      rw [hfun]
      have hacc : f b (k, a) = f b (k + 0, (a :: l).getD 0 d) := by
        rw [Nat.add_zero]
        rfl
      rw [hacc]

theorem foldl_enum_eq_range {α β : Type} (d : α) (l : List α) (f : β → Nat × α → β) (b : β) :
    l.enum.foldl f b = (List.range l.length).foldl (fun acc o => f acc (o, l.getD o d)) b := by
  have h := foldl_enumFrom_eq_range d l 0 f b
  simpa using h

/-- C4: each `extend()` call advances the frontier by exactly one page, and
its scan of the page is exactly the spec's five-rule offset scan
(`extendSpec`, scanning the 64 offsets in increasing order with
PIVOT-normalization, OPEN push/UNRESOLVED, CLOSE pop/backfill, and the
virtual-open rule for an unmatched CLOSE). -/
theorem c4_extend_follows_spec (pages : Nat → List Nat)
    (hlen : ∀ p, (pages p).length = PAGE_SIZE) (jt : JT) :
    jt.extend pages = jt.extendSpec pages
    ∧ (jt.extend pages).progress_maxpage = jt.progress_maxpage + 1 := by
  refine ⟨?_, rfl⟩
  unfold JT.extend JT.extendSpec
  dsimp only
  rw [List.enum, foldl_enumFrom_eq_range 0]
  rw [hlen (jt.progress_maxpage + 1).toNat]
  have hfun : (fun (st : List Nat × (Nat → Option Int)) (o : Nat) =>
        extendStep ((jt.progress_maxpage + 1).toNat * PAGE_SIZE) st
          (0 + o, (pages (jt.progress_maxpage + 1).toNat).getD o 0)) =
      fun (st : List Nat × (Nat → Option Int)) offset =>
        let i := (jt.progress_maxpage + 1).toNat * PAGE_SIZE + offset
        let opcode0 := (pages (jt.progress_maxpage + 1).toNat).getD offset 0
        let opcode := if opcode0 = 9 then (if st.1 = [] then 4 else 5) else opcode0
        if opcode = 4 then
          ((i + 1) :: st.1, mapSet st.2 i (-1))
        else if opcode = 5 then
          match st.1 with
          | d :: rest => (rest, mapSet (mapSet st.2 i (d : Int)) (d - 1) (i + 1))
          | [] => (st.1, mapSet st.2 i 0)
        else st := by
    funext st o
    show extendStep _ st (0 + o, _) = _
    rw [Nat.zero_add]
    unfold extendStep
    dsimp only
    cases hs : st.1 with
    | nil => rfl
    | cons dd rest => rfl
  rw [hfun]

/-- C4 witness: the spec scan and the implementation scan agree on the
all-zero page stream, and the frontier advances from -1 to 0. -/
theorem c4_extend_follows_spec_witness :
    JT.init.extend (pagesOf 0) = JT.init.extendSpec (pagesOf 0)
    ∧ (JT.init.extend (pagesOf 0)).progress_maxpage = JT.init.progress_maxpage + 1 :=
  c4_extend_follows_spec (pagesOf 0) (fun p => by simp [pagesOf]) JT.init

/-! ## C3: the five-rule jump-resolution policy -/

theorem resolveLoop_spec (pages : Nat → List Nat) :
    ∀ (k fuel : Nat) (jt : JT) (i : Nat) (d : Int),
      1 ≤ k → k ≤ fuel →
      (∀ j, 1 ≤ j → j < k → (JT.extendN pages j jt).mapping i = some (-1)) →
      (JT.extendN pages k jt).mapping i = some d → d ≠ -1 →
      resolveLoop pages fuel jt i = .ok (d, JT.extendN pages k jt) := by
  intro k
  induction k with
  | zero => intro fuel jt i d h1; omega
  | succ k ih =>
      intro fuel jt i d h1 hfuel hmid hres hd
      cases fuel with
      | zero => omega
      | succ fuel =>
          cases k with
          | zero =>
              have h : (jt.extend pages).mapping i = some d := hres
              simp only [resolveLoop, h]
              rw [if_neg hd]
              rfl
          | succ k' =>
              have h : (jt.extend pages).mapping i = some (-1) :=
                hmid 1 le_rfl (by omega)
              simp only [resolveLoop, h, if_true]
              exact ih fuel (jt.extend pages) i d (by omega) (by omega)
                (fun j hj1 hj2 => hmid (j + 1) (by omega) (by omega)) hres hd

/-- C3: with the instruction's page already covered
(`page_of i ≤ progress_maxpage`) and `dest = mapping[i]`, `get_jump_dest`
follows the five-rule policy: (1) forward (`dest > i` or UNRESOLVED), head
non-zero → `i+1`; (2) forward, head zero, resolved → `dest`; (3) forward,
head zero, unresolved → extend until resolved (say after `k` extends) and
return the now-known `dest`; (4) backward (`dest ≤ i`, resolved), head
non-zero → `dest` (a self-loop when `dest = i`); (5) backward, head zero →
`i+1`. -/
theorem c3_jump_policy (pages : Nat → List Nat) (fuel : Nat) (jt : JT) (i : Nat) (dest : Int)
    (hcov : ((i / PAGE_SIZE : Nat) : Int) ≤ jt.progress_maxpage)
    (hmap : jt.mapping i = some dest) :
    ((dest > (i : Int) ∨ dest = -1) →
        JT.get_jump_dest pages fuel jt i false = .ok ((i : Int) + 1, jt))
    ∧ (dest > (i : Int) → dest ≠ -1 →
        JT.get_jump_dest pages fuel jt i true = .ok (dest, jt))
    ∧ (dest = -1 →
        ∀ k d, 1 ≤ k → k ≤ fuel →
          (∀ j, 1 ≤ j → j < k → (JT.extendN pages j jt).mapping i = some (-1)) →
          (JT.extendN pages k jt).mapping i = some d → d ≠ -1 →
          JT.get_jump_dest pages fuel jt i true = .ok (d, JT.extendN pages k jt))
    ∧ (dest ≤ (i : Int) → dest ≠ -1 →
        JT.get_jump_dest pages fuel jt i false = .ok (dest, jt))
    ∧ (dest ≤ (i : Int) → dest ≠ -1 →
        JT.get_jump_dest pages fuel jt i true = .ok ((i : Int) + 1, jt)) := by
  have hred : ∀ z, JT.get_jump_dest pages fuel jt i z =
      (if (dest > (i : Int) ∨ dest = -1) ∧ z = false then .ok ((i : Int) + 1, jt)
       else if (dest > (i : Int) ∨ dest = -1) ∧ z = true ∧ dest ≠ -1 then .ok (dest, jt)
       else if (dest > (i : Int) ∨ dest = -1) ∧ z = true ∧ dest = -1 then
         resolveLoop pages fuel jt i
       else if ¬(dest > (i : Int) ∨ dest = -1) ∧ z = false then .ok (dest, jt)
       else if ¬(dest > (i : Int) ∨ dest = -1) ∧ z = true then .ok ((i : Int) + 1, jt)
       else .error .assertError) := by
    intro z
    simp only [JT.get_jump_dest]
    rw [cover_of_covered pages jt (i / PAGE_SIZE) hcov, hmap]
  refine ⟨?_, ?_, ?_, ?_, ?_⟩
  · intro h
    rw [hred false, if_pos ⟨h, rfl⟩]
  · intro h1 h2
    rw [hred true, if_neg (by simp), if_pos ⟨Or.inl h1, rfl, h2⟩]
  · intro h k d hk hfuel hmid hres hd
    rw [hred true, if_neg (by simp), if_neg (by simp [h]), if_pos ⟨Or.inr h, rfl, h⟩]
    exact resolveLoop_spec pages k fuel jt i d hk hfuel hmid hres hd
  · intro h1 h2
    have hnA : ¬(dest > (i : Int) ∨ dest = -1) := fun hor =>
      hor.elim (fun hgt => absurd hgt (by omega)) fun heq => h2 heq
    rw [hred false, if_neg (by rintro ⟨hA, -⟩; exact hnA hA),
        if_neg (by simp), if_neg (by simp), if_pos ⟨hnA, rfl⟩]
  · intro h1 h2
    have hnA : ¬(dest > (i : Int) ∨ dest = -1) := fun hor =>
      hor.elim (fun hgt => absurd hgt (by omega)) fun heq => h2 heq
    rw [hred true, if_neg (by simp), if_neg (by rintro ⟨hA, -⟩; exact hnA hA),
        if_neg (by rintro ⟨hA, -⟩; exact hnA hA), if_neg (by simp),
        if_pos ⟨hnA, rfl⟩]

/-- A bracket-rich page stream for exercising the policy: page 0 is
`[ ] [ …` (OPEN CLOSE OPEN then no-ops), every later page starts with `]`. -/
def pagesB : Nat → List Nat := fun p =>
  if p = 0 then 4 :: 5 :: 4 :: List.replicate 61 0 else 5 :: List.replicate 63 0

/-- The jump table after scanning page 0 of `pagesB`: mapping
`0 ↦ 2, 1 ↦ 1, 2 ↦ UNRESOLVED`, one pending open. -/
def jtB : JT := JT.init.extend pagesB

/-- C3 witness: all five rules at concrete indices of `pagesB` — the matched
pair `(0,1)` (forward taken/fallthrough, backward self-loop `dest = 1 = i`)
and the pending OPEN at index 2 whose CLOSE appears on page 1 (rule 3
resolves it to 65 after one extend). -/
theorem c3_jump_policy_witness :
    JT.get_jump_dest pagesB 5 jtB 0 false = .ok (1, jtB)
    ∧ JT.get_jump_dest pagesB 5 jtB 0 true = .ok (2, jtB)
    ∧ JT.get_jump_dest pagesB 5 jtB 1 false = .ok (1, jtB)
    ∧ JT.get_jump_dest pagesB 5 jtB 1 true = .ok (2, jtB)
    ∧ JT.get_jump_dest pagesB 5 jtB 2 true = .ok (65, JT.extendN pagesB 1 jtB) :=
  ⟨(c3_jump_policy pagesB 5 jtB 0 2 (by decide) (by decide)).1 (Or.inl (by decide)),
   (c3_jump_policy pagesB 5 jtB 0 2 (by decide) (by decide)).2.1 (by decide) (by decide),
   (c3_jump_policy pagesB 5 jtB 1 1 (by decide) (by decide)).2.2.2.1 (by decide) (by decide),
   (c3_jump_policy pagesB 5 jtB 1 1 (by decide) (by decide)).2.2.2.2 (by decide) (by decide),
   (c3_jump_policy pagesB 5 jtB 2 (-1) (by decide) (by decide)).2.2.1 rfl 1 65
     (by decide) (by decide) (fun j hj1 hj2 => by omega) (by decide) (by decide)⟩

/-! ## C10: the jump mapping's domain is exactly the bracket positions -/

/-- The bracket-stack well-formedness carried by the scan: every pending
destination is positive and its OPEN position is already in the mapping. -/
def StkInv (s : List Nat × (Nat → Option Int)) : Prop :=
  ∀ e ∈ s.1, 1 ≤ e ∧ s.2 (e - 1) ≠ none

theorem extendStep_open (frame o : Nat) (s : List Nat × (Nat → Option Int)) :
    extendStep frame s (o, 4) = ((frame + o + 1) :: s.1, mapSet s.2 (frame + o) (-1)) := rfl

theorem extendStep_close_cons (frame o d : Nat) (rest : List Nat)
    (s : List Nat × (Nat → Option Int)) (hs : s.1 = d :: rest) :
    extendStep frame s (o, 5) =
      (rest, mapSet (mapSet s.2 (frame + o) (d : Int)) (d - 1) (frame + o + 1)) := by
  simp [extendStep, hs]

theorem extendStep_close_nil (frame o : Nat) (s : List Nat × (Nat → Option Int))
    (hs : s.1 = []) :
    extendStep frame s (o, 5) = ([], mapSet s.2 (frame + o) 0) := by
  simp [extendStep, hs]

theorem extendStep_pivot (frame o : Nat) (s : List Nat × (Nat → Option Int)) :
    extendStep frame s (o, 9) = extendStep frame s (o, if s.1 = [] then 4 else 5) := by
  by_cases hs : s.1 = [] <;> simp [extendStep, hs]

theorem extendStep_other (frame o x : Nat) (s : List Nat × (Nat → Option Int))
    (hx : ¬isBracket x) : extendStep frame s (o, x) = s := by
  unfold isBracket at hx
  push_neg at hx
  unfold extendStep
  dsimp only
  rw [if_neg hx.2.2, if_neg hx.1, if_neg hx.2.1]

theorem extendStep_dom (frame o x : Nat) (s : List Nat × (Nat → Option Int))
    (hstk : StkInv s) (hb : isBracket x) :
    (∀ y, (extendStep frame s (o, x)).2 y ≠ none ↔ (y = frame + o ∨ s.2 y ≠ none))
    ∧ StkInv (extendStep frame s (o, x)) := by
  have case4 :
      (∀ y, (extendStep frame s (o, 4)).2 y ≠ none ↔ (y = frame + o ∨ s.2 y ≠ none))
      ∧ StkInv (extendStep frame s (o, 4)) := by
    rw [extendStep_open]
    constructor
    · intro y
      exact mapSet_ne_none_iff s.2 (frame + o) (-1) y
    · intro e he
      rcases List.mem_cons.mp he with rfl | he'
      · refine ⟨by omega, ?_⟩
        rw [Nat.add_sub_cancel, mapSet_ne_none_iff]
        exact Or.inl rfl
      · obtain ⟨h1, h2⟩ := hstk e he'
        exact ⟨h1, by rw [mapSet_ne_none_iff]; exact Or.inr h2⟩
  have case5 :
      (∀ y, (extendStep frame s (o, 5)).2 y ≠ none ↔ (y = frame + o ∨ s.2 y ≠ none))
      ∧ StkInv (extendStep frame s (o, 5)) := by
    cases hs : s.1 with
    | nil =>
        rw [extendStep_close_nil frame o s hs]
        constructor
        · intro y
          exact mapSet_ne_none_iff s.2 (frame + o) 0 y
        · intro e he
          simp at he
    | cons d rest =>
        rw [extendStep_close_cons frame o d rest s hs]
        have hd := hstk d (by rw [hs]; exact List.mem_cons_self d rest)
        constructor
        · intro y
          rw [mapSet_ne_none_iff, mapSet_ne_none_iff]
          constructor
          · rintro (rfl | hy)
            · exact Or.inr hd.2
            · exact hy
          · intro hy
            exact Or.inr hy
        · intro e he
          have he' : e ∈ s.1 := by rw [hs]; exact List.mem_cons_of_mem d he
          obtain ⟨h1, h2⟩ := hstk e he'
          refine ⟨h1, ?_⟩
          rw [mapSet_ne_none_iff, mapSet_ne_none_iff]
          exact Or.inr (Or.inr h2)
  rcases hb with h | h | h
  · rw [h]; exact case4
  · rw [h]; exact case5
  · rw [h, extendStep_pivot]
    by_cases hs : s.1 = []
    · rw [if_pos hs]; exact case4
    · rw [if_neg hs]; exact case5

theorem scanRange_inv (page : List Nat) (frame : Nat) :
    ∀ (t : Nat) (s0 : List Nat × (Nat → Option Int)), StkInv s0 →
      StkInv ((List.range t).foldl
          (fun acc o => extendStep frame acc (o, page.getD o 0)) s0)
      ∧ ∀ y, ((List.range t).foldl
            (fun acc o => extendStep frame acc (o, page.getD o 0)) s0).2 y ≠ none ↔
          ((∃ o, o < t ∧ y = frame + o ∧ isBracket (page.getD o 0)) ∨ s0.2 y ≠ none) := by
  intro t
  induction t with
  | zero =>
      intro s0 h0
      refine ⟨h0, fun y => ?_⟩
      simp
  | succ t ih =>
      intro s0 h0
      obtain ⟨hstk, hdom⟩ := ih s0 h0
      rw [List.range_succ, List.foldl_append, List.foldl_cons, List.foldl_nil]
      by_cases hb : isBracket (page.getD t 0)
      · obtain ⟨hdom', hstk'⟩ := extendStep_dom frame t (page.getD t 0) _ hstk hb
        refine ⟨hstk', fun y => ?_⟩
        rw [hdom' y, hdom y]
        constructor
        · rintro (rfl | ⟨o, ho, rfl, hbo⟩ | h)
          · exact Or.inl ⟨t, by omega, rfl, hb⟩
          · exact Or.inl ⟨o, by omega, rfl, hbo⟩
          · exact Or.inr h
        · rintro (⟨o, ho, rfl, hbo⟩ | h)
          · by_cases hot : o = t
            · subst hot; exact Or.inl rfl
            · exact Or.inr (Or.inl ⟨o, by omega, rfl, hbo⟩)
          · exact Or.inr (Or.inr h)
      · rw [extendStep_other frame t (page.getD t 0) _ hb]
        refine ⟨hstk, fun y => ?_⟩
        rw [hdom y]
        constructor
        · rintro (⟨o, ho, rfl, hbo⟩ | h)
          · exact Or.inl ⟨o, by omega, rfl, hbo⟩
          · exact Or.inr h
        · rintro (⟨o, ho, rfl, hbo⟩ | h)
          · by_cases hot : o = t
            · subst hot; exact absurd hbo hb
            · exact Or.inl ⟨o, by omega, rfl, hbo⟩
          · exact Or.inr h

theorem extendN_succ (pages : Nat → List Nat) :
    ∀ (n : Nat) (jt : JT),
      JT.extendN pages (n + 1) jt = (JT.extendN pages n jt).extend pages := by
  intro n
  induction n with
  | zero => intro jt; rfl
  | succ n ih =>
      intro jt
      show JT.extendN pages (n + 1) (jt.extend pages) = _
      rw [ih]
      rfl

theorem extend_eq_range_fold (pages : Nat → List Nat)
    (hlen : ∀ p, (pages p).length = PAGE_SIZE) (jt : JT) :
    jt.extend pages =
      { progress_maxpage := jt.progress_maxpage + 1,
        progress_open :=
          ((List.range PAGE_SIZE).foldl
            (fun acc o => extendStep ((jt.progress_maxpage + 1).toNat * PAGE_SIZE) acc
              (o, (pages (jt.progress_maxpage + 1).toNat).getD o 0))
            (jt.progress_open, jt.mapping)).1,
        mapping :=
          ((List.range PAGE_SIZE).foldl
            (fun acc o => extendStep ((jt.progress_maxpage + 1).toNat * PAGE_SIZE) acc
              (o, (pages (jt.progress_maxpage + 1).toNat).getD o 0))
            (jt.progress_open, jt.mapping)).2 } := by
  unfold JT.extend
  dsimp only
  rw [List.enum, foldl_enumFrom_eq_range 0, hlen]
  have hfun : (fun (acc : List Nat × (Nat → Option Int)) (o : Nat) =>
        extendStep ((jt.progress_maxpage + 1).toNat * PAGE_SIZE) acc
          (0 + o, (pages (jt.progress_maxpage + 1).toNat).getD o 0)) =
      fun acc o =>
        extendStep ((jt.progress_maxpage + 1).toNat * PAGE_SIZE) acc
          (o, (pages (jt.progress_maxpage + 1).toNat).getD o 0) := by
    funext acc o
    rw [Nat.zero_add]
  rw [hfun]

/-- The stack well-formedness at the `JT` level. -/
def StkInvJT (jt : JT) : Prop :=
  ∀ e ∈ jt.progress_open, 1 ≤ e ∧ jt.mapping (e - 1) ≠ none

theorem extendN_init_domain (pages : Nat → List Nat)
    (hlen : ∀ p, (pages p).length = PAGE_SIZE) :
    ∀ n, StkInvJT (JT.extendN pages n JT.init)
      ∧ ∀ x, (JT.extendN pages n JT.init).mapping x ≠ none ↔
          (x < n * PAGE_SIZE ∧ isBracket (nib pages x)) := by
  intro n
  induction n with
  | zero =>
      constructor
      · intro e he
        simp [JT.extendN, JT.init] at he
      · intro x
        simp [JT.extendN, JT.init]
  | succ n ih =>
      obtain ⟨hstk, hdom⟩ := ih
      have hmax : (JT.extendN pages n JT.init).progress_maxpage + 1 = (n : Int) := by
        rw [extendN_maxpage]
        show (-1 : Int) + n + 1 = n
        omega
      have hmaxN : ((JT.extendN pages n JT.init).progress_maxpage + 1).toNat = n := by
        rw [hmax]
        exact Int.toNat_natCast n
      rw [extendN_succ, extend_eq_range_fold pages hlen, hmaxN]
      have hscan := scanRange_inv (pages n) (n * PAGE_SIZE) PAGE_SIZE
        ((JT.extendN pages n JT.init).progress_open, (JT.extendN pages n JT.init).mapping)
        hstk
      obtain ⟨hstk', hdom'⟩ := hscan
      constructor
      · exact hstk'
      · intro x
        rw [hdom' x, hdom x]
        have hps : PAGE_SIZE = 64 := rfl
        constructor
        · rintro (⟨o, ho, rfl, hbo⟩ | ⟨hx, hbx⟩)
          · refine ⟨by simp only [hps] at *; omega, ?_⟩
            have h1 : (n * PAGE_SIZE + o) / PAGE_SIZE = n := by
              simp only [hps] at *
              omega
            have h2 : (n * PAGE_SIZE + o) % PAGE_SIZE = o := by
              simp only [hps] at *
              omega
            unfold nib
            rw [h1, h2]
            exact hbo
          · exact ⟨by simp only [hps] at *; omega, hbx⟩
        · rintro ⟨hx, hbx⟩
          by_cases hlt : x < n * PAGE_SIZE
          · exact Or.inr ⟨hlt, hbx⟩
          · refine Or.inl ⟨x - n * PAGE_SIZE, by simp only [hps] at *; omega,
              by simp only [hps] at *; omega, ?_⟩
            have h1 : x / PAGE_SIZE = n := by
              simp only [hps] at *
              omega
            have h2 : x % PAGE_SIZE = x - n * PAGE_SIZE := by
              simp only [hps] at *
              omega
            unfold nib at hbx
            rw [h1, h2] at hbx
            exact hbx

/-- C10: after `n` `extend()` calls from a fresh jump table, the mapping's
domain is exactly the instruction indices below `n * 64` whose
(PIVOT-normalizable) opcode is a bracket (OPEN, CLOSE or PIVOT); calling
`get_jump_dest` on an already-covered index holding any non-bracket opcode
raises the missing-key `KeyError` instead of returning a destination. -/
theorem c10_mapping_domain (pages : Nat → List Nat)
    (hlen : ∀ p, (pages p).length = PAGE_SIZE) :
    (∀ n x, (JT.extendN pages n JT.init).mapping x ≠ none ↔
        (x < n * PAGE_SIZE ∧ isBracket (nib pages x)))
    ∧ (∀ (n i fuel : Nat) (z : Bool), i < n * PAGE_SIZE → ¬isBracket (nib pages i) →
        JT.get_jump_dest pages fuel (JT.extendN pages n JT.init) i z =
          .error .keyError) := by
  have main := extendN_init_domain pages hlen
  refine ⟨fun n x => (main n).2 x, ?_⟩
  intro n i fuel z hi hib
  have hnone : (JT.extendN pages n JT.init).mapping i = none := by
    by_contra hc
    exact hib (((main n).2 i).mp hc).2
  have hcov : ((i / PAGE_SIZE : Nat) : Int) ≤
      (JT.extendN pages n JT.init).progress_maxpage := by
    rw [extendN_maxpage]
    show ((i / PAGE_SIZE : Nat) : Int) ≤ -1 + n
    have hps : PAGE_SIZE = 64 := rfl
    simp only [hps] at *
    omega
  simp only [JT.get_jump_dest]
  rw [cover_of_covered pages _ _ hcov, hnone]

/-- C10 witness: on the all-zero page stream, after one extend, index 5 is
covered but holds no bracket, so it is outside the mapping's domain and
`get_jump_dest` fails with the missing-key error. -/
theorem c10_mapping_domain_witness :
    ((JT.extendN (pagesOf 0) 1 JT.init).mapping 5 ≠ none ↔
        (5 < 1 * PAGE_SIZE ∧ isBracket (nib (pagesOf 0) 5)))
    ∧ JT.get_jump_dest (pagesOf 0) 3 (JT.extendN (pagesOf 0) 1 JT.init) 5 false =
        .error .keyError :=
  ⟨(c10_mapping_domain (pagesOf 0) (fun p => by simp [pagesOf])).1 1 5,
   (c10_mapping_domain (pagesOf 0) (fun p => by simp [pagesOf])).2 1 5 3 false
     (by decide) (by decide)⟩

end Judecca
